import Mathlib

/-!
Shallow embedding of the FAB-JAX sequential Monte Carlo sampler
(`fabjax/sampling/smc.py`) together with the helper functions it uses.

Modelling conventions:
* Floating-point scalars are modelled by `Fab.FVal`: either a finite
  value `fin q` (with exact rational arithmetic standing in for float
  arithmetic) or the collapsed non-finite value `inv` covering `nan`,
  `inf` and `-inf` — `jnp.isfinite` only observes this distinction.
  Arithmetic propagates non-finiteness, matching the fact that float
  `+`, `-`, `*` never map a non-finite operand back to a finite result.
* Batched arrays become lists of per-particle values; `jax.tree_map`
  combined with `broadcasted_where` becomes per-particle selection.
* PRNG keys are abstracted: each stochastic primitive receives the
  indices it would have drawn as an explicit oracle argument, and the
  distributional guarantee of the primitive (e.g. `jax.random.choice`
  with a probability vector that is zero on invalid particles only
  returns valid indices) is stated as a hypothesis where needed.
* The annealing-schedule construction of `build_smc` is modelled over
  the real numbers, where `jnp.linspace` and `jnp.geomspace` have exact
  counterparts.
* `fabjax/sampling/base.py`, `fabjax/sampling/resampling.py` and
  `fabjax/utils/jax_util.py` are not among the available sources; the
  definitions taken from them carry a doc comment starting with
  `Modelled from the spec:` and follow the design document's wording.
-/

namespace Fab

/-- A floating-point scalar: either a finite value (modelled as a
rational) or a non-finite value (`nan`, `inf` or `-inf`, which
`jnp.isfinite` classifies identically). -/
inductive FVal where
  | fin : ℚ → FVal
  | inv : FVal
deriving DecidableEq

namespace FVal

/-- `jnp.isfinite` on a scalar. -/
def isfinite : FVal → Bool
  | fin _ => true
  | inv => false

/-- Float addition: any non-finite operand makes the result non-finite
(`inf + finite = inf`, `inf - inf = nan`, etc. — all collapsed to `inv`). -/
def add : FVal → FVal → FVal
  | fin a, fin b => fin (a + b)
  | _, _ => inv

/-- Float subtraction, with the same non-finiteness propagation. -/
def sub : FVal → FVal → FVal
  | fin a, fin b => fin (a - b)
  | _, _ => inv

end FVal

/-- Modelled from the spec: `Point` is the per-particle state NamedTuple
from `fabjax.sampling.base` (not among the available sources): position
`x`, the stored log-densities `log_q` and `log_p`, and an optional
gradient (present only for gradient-based transition operators). -/
structure Point where
  x : List FVal
  log_q : FVal
  log_p : FVal
  grad : Option (List FVal)
deriving DecidableEq

/-- The validity mask used verbatim at `smc.py` lines 82-83 and 93-94:
`jnp.isfinite(log_q) & jnp.isfinite(log_p) & jnp.alltrue(jnp.isfinite(x), axis=-1)`
(the gradient is not part of the check). -/
def validPoint (p : Point) : Bool :=
  p.log_q.isfinite && p.log_p.isfinite && p.x.all FVal.isfinite

/-- A valid placeholder point, used as the out-of-range default for list
indexing (jax array indexing clamps out-of-range gather indices). -/
def defaultPoint : Point :=
  { x := [], log_q := .fin 0, log_p := .fin 0, grad := none }

instance : Inhabited Point := ⟨defaultPoint⟩

/-- Modelled from the spec: `get_intermediate_log_prob` lives in
`fabjax.sampling.base`, which is not among the available sources.
Design section 4.2: the annealed log-density at interpolation level
`beta` recovers `log_q` at `beta = 0` and the optimal alpha-divergence
target `alpha * log_p - (alpha - 1) * log_q` at `beta = 1`, interpolating
linearly in between.  Non-finite stored densities contaminate the
result, as float arithmetic would. -/
def get_intermediate_log_prob (log_q log_p : FVal) (beta alpha : ℚ) : FVal :=
  match log_q, log_p with
  | .fin q, .fin p => .fin ((1 - beta) * q + beta * (alpha * p - (alpha - 1) * q))
  | _, _ => .inv

/-- `smc.py` lines 64-69: a point's contribution to the SMC log-weights,
the difference of the annealed log-density at `betas[i+1]` and at
`betas[i]`, evaluated on the `log_q` / `log_p` stored on the point. -/
def log_weight_contribution_point (point : Point) (ais_step_index : ℕ)
    (betas : ℕ → ℚ) (alpha : ℚ) : FVal :=
  let log_numerator :=
    get_intermediate_log_prob point.log_q point.log_p (betas (ais_step_index + 1)) alpha
  let log_denominator :=
    get_intermediate_log_prob point.log_q point.log_p (betas ais_step_index) alpha
  FVal.sub log_numerator log_denominator

/-- C5: for all finite `log_q`, `log_p` and every `alpha`,
`get_intermediate_log_prob(log_q, log_p, 0, alpha) = log_q` and
`get_intermediate_log_prob(log_q, log_p, 1, alpha) = alpha*log_p - (alpha-1)*log_q`. -/
theorem claim5_intermediate_log_prob_endpoints (log_q log_p alpha : ℚ) :
    get_intermediate_log_prob (.fin log_q) (.fin log_p) 0 alpha = .fin log_q ∧
    get_intermediate_log_prob (.fin log_q) (.fin log_p) 1 alpha =
      .fin (alpha * log_p - (alpha - 1) * log_q) := by
  constructor
  · simp [get_intermediate_log_prob]
  · simp only [get_intermediate_log_prob]
    congr 1
    ring

/-- C3: `log_weight_contribution_point(point, i, betas, alpha)` returns
`get_intermediate_log_prob(point.log_q, point.log_p, betas[i+1], alpha) -
get_intermediate_log_prob(point.log_q, point.log_p, betas[i], alpha)`, and
it depends only on the stored `log_q` / `log_p` — any point with the same
stored values (regardless of its position `x` or gradient) yields the
same contribution, so the densities are never re-evaluated at `point.x`. -/
theorem claim3_log_weight_contribution_from_stored (p : Point) (i : ℕ)
    (betas : ℕ → ℚ) (alpha : ℚ) :
    log_weight_contribution_point p i betas alpha =
      FVal.sub (get_intermediate_log_prob p.log_q p.log_p (betas (i + 1)) alpha)
        (get_intermediate_log_prob p.log_q p.log_p (betas i) alpha) ∧
    ∀ p' : Point, p'.log_q = p.log_q → p'.log_p = p.log_p →
      log_weight_contribution_point p' i betas alpha =
        log_weight_contribution_point p i betas alpha := by
  refine ⟨rfl, ?_⟩
  intro p' h1 h2
  simp [log_weight_contribution_point, h1, h2]

/-- Instantiation of C3 at a concrete point: a second point with the same
stored log-densities but a different position and gradient produces the
same log-weight contribution. -/
theorem claim3_witness :
    log_weight_contribution_point
        { x := [.fin 5, .inv], log_q := .fin 1, log_p := .fin 2, grad := some [.fin 7] }
        0 (fun i => (i : ℚ) / 2) 2 =
      log_weight_contribution_point
        { x := [.fin 0], log_q := .fin 1, log_p := .fin 2, grad := none }
        0 (fun i => (i : ℚ) / 2) 2 :=
  (claim3_log_weight_contribution_from_stored
      { x := [.fin 0], log_q := .fin 1, log_p := .fin 2, grad := none }
      0 (fun i => (i : ℚ) / 2) 2).2
    { x := [.fin 5, .inv], log_q := .fin 1, log_p := .fin 2, grad := some [.fin 7] }
    rfl rfl

/-- Element of `List.zipWith` at an in-range index. -/
theorem getD_zipWith_of_lt {α β γ : Type} (f : α → β → γ) (l1 : List α) (l2 : List β)
    (k : ℕ) (h1 : k < l1.length) (h2 : k < l2.length) (d : γ) (d1 : α) (d2 : β) :
    (List.zipWith f l1 l2).getD k d = f (l1.getD k d1) (l2.getD k d2) := by
  rw [List.getD_eq_getElem _ _ (by rw [List.length_zipWith]; omega),
    List.getElem_zipWith, List.getD_eq_getElem _ _ h1, List.getD_eq_getElem _ _ h2]

/-- Element of `List.map` at an in-range index. -/
theorem getD_map_of_lt {α β : Type} (f : α → β) (l : List α) (k : ℕ)
    (h : k < l.length) (d : β) (d1 : α) :
    (l.map f).getD k d = f (l.getD k d1) := by
  rw [List.getD_eq_getElem _ _ (by simpa using h), List.getElem_map,
    List.getD_eq_getElem _ _ h]

/-- Indexing a batch by a drawn index.  jax gather clamps out-of-range
indices into range, hence the `min` with the last index. -/
def gatherPoint (point : List Point) (i : ℕ) : Point :=
  point.getD (min i (point.length - 1)) defaultPoint

/-- `smc.py` lines 91-101: compute the validity mask, draw a batch of
replacement indices supported on the valid particles
(`jax.random.choice` with probability weights `1` on valid and `0` on
invalid particles — the drawn `indices` are passed in explicitly here),
gather the corresponding alternative points, and keep each original
particle where it is valid, substituting the gathered one elsewhere
(`broadcasted_where(valid_samples, point, alt_points)`). -/
def replace_invalid_samples_with_valid_ones (point : List Point) (indices : List ℕ) :
    List Point :=
  let alt_points := indices.map (gatherPoint point)
  List.zipWith (fun a b => if validPoint a then a else b) point alt_points

/-- C6: for a batch in which exactly one particle (at index `j`) is valid,
and replacement indices drawn as `jax.random.choice` guarantees (each
drawn index gathers a valid particle — with exactly one valid particle
the zero/one probability vector forces this), every output particle of
`replace_invalid_samples_with_valid_ones` equals that valid particle,
gradient included. -/
theorem claim6_replace_invalid_single_valid (point : List Point) (indices : List ℕ)
    (j : ℕ) (hj : j < point.length)
    (hvalid : validPoint (point.getD j defaultPoint) = true)
    (huniq : ∀ k, k < point.length → validPoint (point.getD k defaultPoint) = true → k = j)
    (hlen : indices.length = point.length)
    (hchoice : ∀ i ∈ indices, validPoint (gatherPoint point i) = true) :
    ∀ k, k < point.length →
      (replace_invalid_samples_with_valid_ones point indices).getD k defaultPoint =
        point.getD j defaultPoint := by
  intro k hk
  have hmaplen : (indices.map (gatherPoint point)).length = point.length := by
    simpa using hlen
  rw [replace_invalid_samples_with_valid_ones]
  rw [getD_zipWith_of_lt _ point _ k hk (by omega) defaultPoint defaultPoint defaultPoint]
  rw [getD_map_of_lt _ indices k (by omega) defaultPoint 0]
  by_cases hsel : validPoint (point.getD k defaultPoint) = true
  · have hkj : k = j := huniq k hk hsel
    subst hkj
    rw [if_pos (by simpa using hsel)]
  · rw [if_neg (by simpa using hsel)]
    have hmem : indices.getD k 0 ∈ indices := by
      rw [List.getD_eq_getElem _ _ (by omega)]
      exact List.getElem_mem _
    have hgv : validPoint (gatherPoint point (indices.getD k 0)) = true :=
      hchoice _ hmem
    have hlt : min (indices.getD k 0) (point.length - 1) < point.length := by omega
    unfold gatherPoint at hgv
    have hj' := huniq _ hlt hgv
    have hmain : gatherPoint point (indices.getD k 0) = point.getD j defaultPoint := by
      unfold gatherPoint
      rw [hj']
    exact hmain

/-- A particle with a non-finite coordinate, used in concrete instantiations. -/
def badPoint : Point :=
  { x := [.inv], log_q := .fin 0, log_p := .fin 0, grad := none }

/-- A fully finite particle, used in concrete instantiations. -/
def goodPoint : Point :=
  { x := [.fin 3], log_q := .fin 1, log_p := .fin 2, grad := some [.fin 4] }

/-- Instantiation of C6: in the batch `[badPoint, goodPoint]` only index 1
is valid; with replacement draws `[1, 1]` both output particles equal
`goodPoint`. -/
theorem claim6_witness :
    (replace_invalid_samples_with_valid_ones [badPoint, goodPoint] [1, 1]).getD 0
        defaultPoint = goodPoint ∧
    (replace_invalid_samples_with_valid_ones [badPoint, goodPoint] [1, 1]).getD 1
        defaultPoint = goodPoint := by
  constructor
  · exact claim6_replace_invalid_single_valid [badPoint, goodPoint] [1, 1] 1
      (by decide) (by decide) (by decide) (by decide) (by decide) 0 (by decide)
  · exact claim6_replace_invalid_single_valid [badPoint, goodPoint] [1, 1] 1
      (by decide) (by decide) (by decide) (by decide) (by decide) 1 (by decide)

/-- A pytree skeleton: the tree structure of a transition-operator state.
Array leaves carry an irrelevant tag; an internal node's children are
encoded as a cons-list spliced into the tree (`nilNode` the empty node,
`consNode c rest` the node whose first child is `c` and whose remaining
children are those of `rest`). -/
inductive PTree where
  | leaf : ℕ → PTree
  | nilNode : PTree
  | consNode : PTree → PTree → PTree
deriving DecidableEq

/-- The transition-operator interface of `fabjax.sampling.base`: `step`
takes the batched point, the operator state, the annealing temperature
`beta`, `alpha` and the two log-density functions, and returns the moved
batch together with the updated state (the diagnostics dict is dropped
from the model).  The operator state is modelled by its pytree skeleton. -/
structure TransitionOperator where
  step : List Point → PTree → ℚ → ℚ → (List FVal → FVal) → (List FVal → FVal) →
    List Point × PTree
  uses_grad : Bool

/-- `smc.py` lines 72-88: one inner AIS iteration — run the transition
operator at temperature `betas[ais_step_index]`, revert every particle
whose new state is invalid to its previous state
(`broadcasted_where(valid_samples, new_point, point)` over the whole
point tree), then add each particle's log-weight contribution computed
on the resulting (post-repair) point. -/
def ais_inner_transition (point : List Point) (log_w : List FVal) (trans_op_state : PTree)
    (betas : ℕ → ℚ) (ais_step_index : ℕ) (transition_operator : TransitionOperator)
    (log_q_fn log_p_fn : List FVal → FVal) (alpha : ℚ) :
    (List Point × List FVal) × PTree :=
  let beta := betas ais_step_index
  let stepped := transition_operator.step point trans_op_state beta alpha log_q_fn log_p_fn
  let new_point := stepped.1
  let point2 := List.zipWith (fun np p => if validPoint np then np else p) new_point point
  let log_w2 := List.zipWith
    (fun w p => FVal.add w (log_weight_contribution_point p ais_step_index betas alpha))
    log_w point2
  ((point2, log_w2), stepped.2)

/-- C10: in `ais_inner_transition`, a particle whose post-transition state
is invalid keeps its own pre-transition state (the repair reverts it,
rather than substituting another particle of the batch), and the stage's
log-weight increment for that particle is computed on the reverted point. -/
theorem claim10_transition_repair_reverts (point : List Point) (log_w : List FVal)
    (s : PTree) (betas : ℕ → ℚ) (i : ℕ) (op : TransitionOperator)
    (qf pf : List FVal → FVal) (alpha : ℚ) (k : ℕ)
    (hk : k < point.length) (hkw : k < log_w.length)
    (hkn : k < (op.step point s (betas i) alpha qf pf).1.length)
    (hinvalid : validPoint ((op.step point s (betas i) alpha qf pf).1.getD k defaultPoint)
      = false) :
    (ais_inner_transition point log_w s betas i op qf pf alpha).1.1.getD k defaultPoint =
      point.getD k defaultPoint ∧
    (ais_inner_transition point log_w s betas i op qf pf alpha).1.2.getD k FVal.inv =
      FVal.add (log_w.getD k FVal.inv)
        (log_weight_contribution_point (point.getD k defaultPoint) i betas alpha) := by
  have hpoint2 : (ais_inner_transition point log_w s betas i op qf pf alpha).1.1.getD k
      defaultPoint = point.getD k defaultPoint := by
    rw [ais_inner_transition]
    rw [getD_zipWith_of_lt _ _ point k hkn hk defaultPoint defaultPoint defaultPoint]
    rw [if_neg (by simpa using hinvalid)]
  refine ⟨hpoint2, ?_⟩
  have hlen2 : k < (List.zipWith (fun np p => if validPoint np then np else p)
      (op.step point s (betas i) alpha qf pf).1 point).length := by
    rw [List.length_zipWith]; omega
  have hrepair : (List.zipWith (fun np p => if validPoint np then np else p)
      (op.step point s (betas i) alpha qf pf).1 point).getD k defaultPoint =
      point.getD k defaultPoint := by
    rw [getD_zipWith_of_lt _ _ point k hkn hk defaultPoint defaultPoint defaultPoint]
    rw [if_neg (by simpa using hinvalid)]
  rw [ais_inner_transition]
  rw [getD_zipWith_of_lt _ log_w _ k hkw hlen2 FVal.inv FVal.inv defaultPoint]
  rw [hrepair]

/-- A transition operator that replaces every particle's position with a
non-finite one (exercising the invalid-sample repair path). -/
def invalidatingOp : TransitionOperator where
  step := fun point s _ _ _ _ => (point.map (fun p => { p with x := [FVal.inv] }), s)
  uses_grad := false

/-- Instantiation of C10: `invalidatingOp` invalidates the single particle,
so the inner transition keeps the pre-transition particle and computes the
increment on it. -/
theorem claim10_witness :
    (ais_inner_transition [goodPoint] [FVal.fin 0] (.leaf 0) (fun i => (i : ℚ) / 2) 1
        invalidatingOp (fun _ => .fin 0) (fun _ => .fin 0) 2).1.1.getD 0 defaultPoint =
      [goodPoint].getD 0 defaultPoint ∧
    (ais_inner_transition [goodPoint] [FVal.fin 0] (.leaf 0) (fun i => (i : ℚ) / 2) 1
        invalidatingOp (fun _ => .fin 0) (fun _ => .fin 0) 2).1.2.getD 0 FVal.inv =
      FVal.add ([FVal.fin 0].getD 0 FVal.inv)
        (log_weight_contribution_point ([goodPoint].getD 0 defaultPoint) 1
          (fun i => (i : ℚ) / 2) 2) :=
  claim10_transition_repair_reverts [goodPoint] [FVal.fin 0] (.leaf 0)
    (fun i => (i : ℚ) / 2) 1 invalidatingOp (fun _ => .fin 0) (fun _ => .fin 0) 2 0
    (by decide) (by decide) (by decide) (by decide)

/-- Modelled from the spec: `create_point` from `fabjax.sampling.base`
(not among the available sources) evaluates `log_q_fn` and `log_p_fn` at
the position and, when the transition operator requires gradients,
attaches the gradient of the annealed log-density (abstracted here as an
explicit `grad_fn`). -/
def create_point (x : List FVal) (log_q_fn log_p_fn : List FVal → FVal)
    (with_grad : Bool) (grad_fn : List FVal → List FVal) : Point :=
  { x := x, log_q := log_q_fn x, log_p := log_p_fn x,
    grad := if with_grad then some (grad_fn x) else none }

/-- `smc.py` lines 17-20: state of the SMC sampler — the stacked
per-stage transition-operator states and the PRNG key (the key is
abstracted to a counter; all random draws enter through `StepOracle`). -/
structure SMCState where
  transition_operator_state : List PTree
  key : ℕ

/-- The random draws consumed by one call of `smc.step`, passed
explicitly instead of a PRNG key: the indices drawn by
`jax.random.choice` in the initial validity repair, and the per-stage
resampling decision and categorical index draws of `optionally_resample`
(`fabjax.sampling.resampling` is not among the available sources, so its
effective-sample-size test is abstracted to a batch-level decision
predicate). -/
structure StepOracle where
  choice_indices : List ℕ
  resample_decision : ℕ → List FVal → Bool
  resample_indices : ℕ → List ℕ

/-- Modelled from the spec: the `optionally_resample` call inside the
scan body (design section 4.4; `fabjax.sampling.resampling` is not among
the available sources).  The batch-level decision and the categorical
draw are supplied by the oracle; when resampling fires the drawn
particles are gathered and the log-weights are reset to a uniform batch
(all particles carrying one common value — which common value is
irrelevant to the claims settled against this model), otherwise samples
and weights pass through unchanged. -/
def optionally_resample_in_scan (decide_resample : Bool) (indices : List ℕ)
    (log_weights : List FVal) (samples : List Point) : List Point × List FVal :=
  if decide_resample then
    (indices.map (gatherPoint samples), List.replicate log_weights.length (.fin 0))
  else (samples, log_weights)

/-- The scan of `smc.py` lines 189-212: starting at `ais_step_index = 1`,
each stage optionally resamples (`body_fn` lines 194-197) and then runs
`ais_inner_transition` (lines 198-201); the per-stage transition-operator
states are consumed positionally and the updated states are collected,
as `jax.lax.scan` stacks its per-step outputs. -/
def smc_scan (op : TransitionOperator) (betas : ℕ → ℚ) (alpha : ℚ)
    (use_resampling : Bool) (oracle : StepOracle)
    (log_q_fn log_p_fn : List FVal → FVal) :
    List Point × List FVal → List PTree → ℕ → (List Point × List FVal) × List PTree
  | carry, [], _ => (carry, [])
  | carry, s :: rest, i =>
    let resampled := if use_resampling then
        optionally_resample_in_scan (oracle.resample_decision i carry.2)
          (oracle.resample_indices i) carry.2 carry.1
      else carry
    let stepped := ais_inner_transition resampled.1 resampled.2 s betas i op
      log_q_fn log_p_fn alpha
    let tail := smc_scan op betas alpha use_resampling oracle log_q_fn log_p_fn
      stepped.1 rest (i + 1)
    (tail.1, stepped.2 :: tail.2)

/-- `smc.py` lines 155-215 without the two `chex` assertions (those are
restored in `smc_step_checked`): build the initial points from the rows
of `x0`, repair invalid ones, set the initial log-weights to the stage-0
contribution (lines 176-185), scan the annealing stages `1..n`
(lines 205-212), and return the final points, log-weights and the updated
sampler state (diagnostics are dropped from the model). -/
def smc_step (op : TransitionOperator) (betas : ℕ → ℚ) (alpha : ℚ)
    (use_resampling : Bool) (oracle : StepOracle) (grad_fn : List FVal → List FVal)
    (log_q_fn log_p_fn : List FVal → FVal) (x0 : List (List FVal))
    (smc_state : SMCState) : (List Point × List FVal) × SMCState :=
  let point0 := x0.map (fun x => create_point x log_q_fn log_p_fn op.uses_grad grad_fn)
  let point1 := replace_invalid_samples_with_valid_ones point0 oracle.choice_indices
  let log_w_init := point1.map (fun p => log_weight_contribution_point p 0 betas alpha)
  let r := smc_scan op betas alpha use_resampling oracle log_q_fn log_p_fn
    (point1, log_w_init) smc_state.transition_operator_state 1
  (r.1, ⟨r.2, smc_state.key + 1⟩)

/-- A shaped array: a jnp array of which only the shape and the
flattened float contents are modelled. -/
structure NArr where
  shape : List ℕ
  data : List FVal

/-- The rows of a rank-2 array. -/
def toRows (a : NArr) : List (List FVal) :=
  (List.range (a.shape.headD 0)).map
    (fun r => (a.data.drop (r * a.shape.getD 1 0)).take (a.shape.getD 1 0))

/-- Structure equality of pytrees, as `chex.assert_trees_all_equal_structs`
checks it: only the tree structure is compared, leaf contents and shapes
are not. -/
def structEq : PTree → PTree → Bool
  | .leaf _, .leaf _ => true
  | .nilNode, .nilNode => true
  | .consNode a as, .consNode b bs => structEq a b && structEq as bs
  | _, _ => false

/-- Structure equality of the stacked per-stage state lists (stacking a
list of same-structure trees preserves the tree structure, so comparing
the stacks stagewise is the stacked comparison). -/
def structsMatch (a b : List PTree) : Bool :=
  (a.length == b.length) && (List.zipWith structEq a b).all id

/-- `smc.py` lines 155-215 with its two assertions: the rank-2 contract
on `x0` (line 172, `chex.assert_rank(x0, 2)`) checked before any
sampling work, and the state-structure contract (line 214,
`chex.assert_trees_all_equal_structs`) checked after the annealing loop. -/
def smc_step_checked (op : TransitionOperator) (betas : ℕ → ℚ) (alpha : ℚ)
    (use_resampling : Bool) (oracle : StepOracle) (grad_fn : List FVal → List FVal)
    (log_q_fn log_p_fn : List FVal → FVal) (x0 : NArr) (smc_state : SMCState) :
    Except String ((List Point × List FVal) × SMCState) :=
  if x0.shape.length = 2 then
    let r := smc_step op betas alpha use_resampling oracle grad_fn log_q_fn log_p_fn
      (toRows x0) smc_state
    if structsMatch smc_state.transition_operator_state r.2.transition_operator_state then
      Except.ok r
    else Except.error ("chex assertion failed: trees_all_equal_structs")
  else Except.error ("chex assertion failed: rank")

/-- C9: `smc.step` checks the rank-2 contract on `x0` first — a
wrong-rank input produces the rank-assertion error no matter which
operator, density functions or random draws are supplied, so no sampling
work can influence it — and after the annealing loop the collected
per-stage operator-state structure is asserted against the input state
structure, a mismatch being a fatal error rather than being suppressed. -/
theorem claim9_step_assertions (op : TransitionOperator) (betas : ℕ → ℚ) (alpha : ℚ)
    (u : Bool) (oracle : StepOracle) (grad_fn : List FVal → List FVal)
    (qf pf : List FVal → FVal) (x0 : NArr) (st : SMCState) :
    (x0.shape.length ≠ 2 →
      smc_step_checked op betas alpha u oracle grad_fn qf pf x0 st =
        Except.error ("chex assertion failed: rank")) ∧
    (x0.shape.length = 2 →
      structsMatch st.transition_operator_state
          (smc_step op betas alpha u oracle grad_fn qf pf (toRows x0)
            st).2.transition_operator_state = false →
      smc_step_checked op betas alpha u oracle grad_fn qf pf x0 st =
        Except.error ("chex assertion failed: trees_all_equal_structs")) := by
  constructor
  · intro h
    rw [smc_step_checked, if_neg h]
  · intro h2 hmm
    rw [smc_step_checked, if_pos h2, if_neg (by simp [hmm])]

/-- A transition operator whose returned state has a different pytree
structure than the state it was given. -/
def structBreakingOp : TransitionOperator where
  step := fun point _ _ _ _ _ => (point, .nilNode)
  uses_grad := false

/-- Instantiation of C9: a rank-1 `x0` triggers the rank assertion (under
`invalidatingOp`), and under `structBreakingOp` a well-shaped `x0` reaches
the state-structure assertion, which fails fatally. -/
theorem claim9_witness :
    smc_step_checked invalidatingOp (fun _ => 0) 2 false
        ⟨[0], fun _ _ => false, fun _ => []⟩ (fun _ => []) (fun _ => .fin 0)
        (fun _ => .fin 0) ⟨[3], [.fin 0, .fin 0, .fin 0]⟩ ⟨[.leaf 0], 0⟩ =
      Except.error ("chex assertion failed: rank") ∧
    smc_step_checked structBreakingOp (fun _ => 0) 2 false
        ⟨[0], fun _ _ => false, fun _ => []⟩ (fun _ => []) (fun _ => .fin 0)
        (fun _ => .fin 0) ⟨[1, 1], [.fin 0]⟩ ⟨[.leaf 0], 0⟩ =
      Except.error ("chex assertion failed: trees_all_equal_structs") := by
  constructor
  · exact (claim9_step_assertions invalidatingOp (fun _ => 0) 2 false
      ⟨[0], fun _ _ => false, fun _ => []⟩ (fun _ => []) (fun _ => .fin 0)
      (fun _ => .fin 0) ⟨[3], [.fin 0, .fin 0, .fin 0]⟩ ⟨[.leaf 0], 0⟩).1 (by decide)
  · exact (claim9_step_assertions structBreakingOp (fun _ => 0) 2 false
      ⟨[0], fun _ _ => false, fun _ => []⟩ (fun _ => []) (fun _ => .fin 0)
      (fun _ => .fin 0) ⟨[1, 1], [.fin 0]⟩ ⟨[.leaf 0], 0⟩).2 (by decide) (by decide)

/-- Every particle of a batch is valid (finite `log_q`, `log_p` and
position). -/
def allValid (point : List Point) : Bool := point.all validPoint

/-- A clamped gather from an all-valid batch always produces a valid
particle (the out-of-range default point is itself valid). -/
theorem validPoint_gatherPoint (point : List Point) (h : allValid point = true)
    (i : ℕ) : validPoint (gatherPoint point i) = true := by
  rcases point with _ | ⟨p, rest⟩
  · rfl
  · have hlt : min i ((p :: rest).length - 1) < (p :: rest).length := by
      simp only [List.length_cons]
      omega
    unfold gatherPoint
    rw [List.getD_eq_getElem _ _ hlt]
    exact List.all_eq_true.mp h _ (List.getElem_mem hlt)

/-- Keeping each new particle when valid and falling back to the old one
otherwise yields an all-valid batch whenever the fallback batch is
all-valid — the common shape of both repair sites in `smc.py`. -/
theorem allValid_select (l1 l2 : List Point) (h : allValid l2 = true) :
    allValid (List.zipWith (fun a b => if validPoint a then a else b) l1 l2) = true := by
  induction l1 generalizing l2 with
  | nil => rfl
  | cons a as ih =>
    cases l2 with
    | nil => rfl
    | cons b bs =>
      have hb : validPoint b = true := List.all_eq_true.mp h b (by simp)
      have hbs : allValid bs = true := by
        refine List.all_eq_true.mpr ?_
        intro x hx
        exact List.all_eq_true.mp h x (by simp [hx])
      unfold allValid
      rw [List.zipWith_cons_cons, List.all_cons, Bool.and_eq_true]
      refine ⟨?_, ih bs hbs⟩
      by_cases hva : validPoint a = true
      · rw [if_pos hva]
        exact hva
      · rw [if_neg hva]
        exact hb

/-- Gathering drawn indices from an all-valid batch is all-valid. -/
theorem allValid_map_gather (point : List Point) (indices : List ℕ)
    (h : allValid point = true) :
    allValid (indices.map (gatherPoint point)) = true := by
  refine List.all_eq_true.mpr ?_
  intro x hx
  rcases List.mem_map.mp hx with ⟨i, _, rfl⟩
  exact validPoint_gatherPoint point h i

/-- The initial validity repair produces an all-valid batch whenever every
drawn replacement index gathers a valid particle — the guarantee of
`jax.random.choice` under validity-indicator weights, available whenever
at least one particle of the batch is valid. -/
theorem allValid_replace (point : List Point) (indices : List ℕ)
    (hchoice : ∀ i ∈ indices, validPoint (gatherPoint point i) = true) :
    allValid (replace_invalid_samples_with_valid_ones point indices) = true := by
  rw [replace_invalid_samples_with_valid_ones]
  refine allValid_select point _ ?_
  refine List.all_eq_true.mpr ?_
  intro x hx
  rcases List.mem_map.mp hx with ⟨i, hi, rfl⟩
  exact hchoice i hi

/-- Resampling gathers existing particles, so it preserves batch
validity. -/
theorem allValid_optionally_resample_in_scan (d : Bool) (indices : List ℕ)
    (lw : List FVal) (point : List Point) (h : allValid point = true) :
    allValid (optionally_resample_in_scan d indices lw point).1 = true := by
  cases d with
  | false => simpa [optionally_resample_in_scan] using h
  | true => simpa [optionally_resample_in_scan] using allValid_map_gather point indices h

/-- One inner AIS transition preserves batch validity: particles the
transition invalidated are reverted before the carry moves on. -/
theorem allValid_ais_inner (point : List Point) (log_w : List FVal) (s : PTree)
    (betas : ℕ → ℚ) (i : ℕ) (op : TransitionOperator) (qf pf : List FVal → FVal)
    (alpha : ℚ) (h : allValid point = true) :
    allValid (ais_inner_transition point log_w s betas i op qf pf alpha).1.1 = true := by
  rw [ais_inner_transition]
  exact allValid_select _ point h

/-- The annealing scan keeps the carried batch all-valid from any
all-valid starting batch, for either resampling mode. -/
theorem allValid_smc_scan (op : TransitionOperator) (betas : ℕ → ℚ) (alpha : ℚ)
    (u : Bool) (oracle : StepOracle) (qf pf : List FVal → FVal) :
    ∀ (states : List PTree) (i : ℕ) (carry : List Point × List FVal),
      allValid carry.1 = true →
      allValid (smc_scan op betas alpha u oracle qf pf carry states i).1.1 = true := by
  intro states
  induction states with
  | nil =>
    intro i carry h
    exact h
  | cons s rest ih =>
    intro i carry h
    rw [smc_scan]
    refine ih (i + 1) _ ?_
    refine allValid_ais_inner _ _ _ _ _ _ _ _ _ ?_
    cases u with
    | false => exact h
    | true => exact allValid_optionally_resample_in_scan _ _ _ _ h

/-- C4: in `smc.step`, provided at least one particle of the initial
batch is valid (so that `jax.random.choice` under validity-indicator
weights draws only valid replacement indices — that guarantee is the
`hchoice` hypothesis), the batch on which the stage-0 log-weight
increment is computed (the repaired initial batch `point1`) is entirely
finite, and so is the batch on which every later stage's increment is
computed: after any prefix of annealing stages — each of which repairs,
by substituting the pre-transition state, the particles its transition
made non-finite, before the increment is added — the carried batch has
finite `log_q`, `log_p` and position throughout. -/
theorem claim4_increment_batches_all_valid (op : TransitionOperator) (betas : ℕ → ℚ)
    (alpha : ℚ) (u : Bool) (oracle : StepOracle) (grad_fn : List FVal → List FVal)
    (qf pf : List FVal → FVal) (x0 : List (List FVal)) (st : SMCState)
    (point0 : List Point)
    (hpoint0 : point0 = x0.map (fun x => create_point x qf pf op.uses_grad grad_fn))
    (hex : ∃ j, j < point0.length ∧ validPoint (point0.getD j defaultPoint) = true)
    (hchoice : ∀ i ∈ oracle.choice_indices, validPoint (gatherPoint point0 i) = true)
    (point1 : List Point)
    (hpoint1 : point1 = replace_invalid_samples_with_valid_ones point0
      oracle.choice_indices)
    (log_w_init : List FVal)
    (hlw : log_w_init = point1.map
      (fun p => log_weight_contribution_point p 0 betas alpha)) :
    allValid point1 = true ∧
    ∀ m, allValid (smc_scan op betas alpha u oracle qf pf (point1, log_w_init)
        (st.transition_operator_state.take m) 1).1.1 = true := by
  have h1 : allValid point1 = true := by
    rw [hpoint1]
    exact allValid_replace point0 oracle.choice_indices hchoice
  refine ⟨h1, ?_⟩
  intro m
  exact allValid_smc_scan op betas alpha u oracle qf pf _ 1 (point1, log_w_init) h1

/-- Instantiation of C4: one valid initial particle, an invalidating
transition and active resampling — the stage-0 batch and the batch after
the one annealing stage are all-valid. -/
theorem claim4_witness :
    allValid (replace_invalid_samples_with_valid_ones
        ([[FVal.fin 0]].map (fun x => create_point x (fun _ => .fin 0) (fun _ => .fin 0)
          invalidatingOp.uses_grad (fun _ => []))) [0]) = true ∧
    allValid (smc_scan invalidatingOp (fun _ => 0) 2 true
        ⟨[0], fun _ _ => true, fun _ => [0]⟩ (fun _ => .fin 0) (fun _ => .fin 0)
        (replace_invalid_samples_with_valid_ones
          ([[FVal.fin 0]].map (fun x => create_point x (fun _ => .fin 0) (fun _ => .fin 0)
            invalidatingOp.uses_grad (fun _ => []))) [0],
         (replace_invalid_samples_with_valid_ones
            ([[FVal.fin 0]].map (fun x => create_point x (fun _ => .fin 0)
              (fun _ => .fin 0) invalidatingOp.uses_grad (fun _ => []))) [0]).map
           (fun p => log_weight_contribution_point p 0 (fun _ => 0) 2))
        ([PTree.leaf 0].take 1) 1).1.1 = true := by
  constructor
  · exact (claim4_increment_batches_all_valid invalidatingOp (fun _ => 0) 2 true
      ⟨[0], fun _ _ => true, fun _ => [0]⟩ (fun _ => []) (fun _ => .fin 0)
      (fun _ => .fin 0) [[FVal.fin 0]] ⟨[PTree.leaf 0], 0⟩ _ rfl
      ⟨0, by decide, by decide⟩ (by decide) _ rfl _ rfl).1
  · exact (claim4_increment_batches_all_valid invalidatingOp (fun _ => 0) 2 true
      ⟨[0], fun _ _ => true, fun _ => [0]⟩ (fun _ => []) (fun _ => .fin 0)
      (fun _ => .fin 0) [[FVal.fin 0]] ⟨[PTree.leaf 0], 0⟩ _ rfl
      ⟨0, by decide, by decide⟩ (by decide) _ rfl _ rfl).2 1

/-- Log-weight increments telescope: adding the `b → c` increment to an
accumulated `a → b` difference gives the `a → c` difference, finite or
not. -/
theorem gilp_telescope (lq lp : FVal) (a b c alpha : ℚ) :
    FVal.add
      (FVal.sub (get_intermediate_log_prob lq lp b alpha)
        (get_intermediate_log_prob lq lp a alpha))
      (FVal.sub (get_intermediate_log_prob lq lp c alpha)
        (get_intermediate_log_prob lq lp b alpha)) =
    FVal.sub (get_intermediate_log_prob lq lp c alpha)
      (get_intermediate_log_prob lq lp a alpha) := by
  cases lq <;> cases lp <;>
    simp [get_intermediate_log_prob, FVal.add, FVal.sub]

section Claim1Lemmas

variable (op : TransitionOperator) (betas : ℕ → ℚ) (alpha : ℚ)
variable (qf pf : List FVal → FVal)

/-- Batch length is preserved by one inner AIS transition when the
operator preserves it. -/
theorem ais_inner_length
    (Hlen : ∀ B s β, (op.step B s β alpha qf pf).1.length = B.length)
    (B : List Point) (lw : List FVal) (s : PTree) (i : ℕ) :
    (ais_inner_transition B lw s betas i op qf pf alpha).1.1.length = B.length ∧
    (ais_inner_transition B lw s betas i op qf pf alpha).1.2.length =
      min lw.length B.length := by
  rw [ais_inner_transition]
  constructor
  · rw [List.length_zipWith, Hlen, Nat.min_self]
  · rw [List.length_zipWith, List.length_zipWith, Hlen, Nat.min_self]

/-- When the operator leaves each particle's stored `log_q` / `log_p`
unchanged, so does the inner AIS transition (repair only ever reverts to
the previous point). -/
theorem ais_inner_preserves_log_qp
    (Hlen : ∀ B s β, (op.step B s β alpha qf pf).1.length = B.length)
    (Hpres : ∀ B s β k, k < B.length →
      ((op.step B s β alpha qf pf).1.getD k defaultPoint).log_q =
        (B.getD k defaultPoint).log_q ∧
      ((op.step B s β alpha qf pf).1.getD k defaultPoint).log_p =
        (B.getD k defaultPoint).log_p)
    (B : List Point) (lw : List FVal) (s : PTree) (i : ℕ) (k : ℕ) (hk : k < B.length) :
    ((ais_inner_transition B lw s betas i op qf pf alpha).1.1.getD k
        defaultPoint).log_q = (B.getD k defaultPoint).log_q ∧
    ((ais_inner_transition B lw s betas i op qf pf alpha).1.1.getD k
        defaultPoint).log_p = (B.getD k defaultPoint).log_p := by
  have hkn : k < (op.step B s (betas i) alpha qf pf).1.length := by
    rw [Hlen]
    exact hk
  rw [ais_inner_transition]
  rw [getD_zipWith_of_lt _ _ B k hkn hk defaultPoint defaultPoint defaultPoint]
  by_cases hv : validPoint ((op.step B s (betas i) alpha qf pf).1.getD k defaultPoint)
      = true
  · rw [if_pos (by simpa using hv)]
    exact Hpres B s (betas i) k hk
  · rw [if_neg (by simpa using hv)]
    exact ⟨rfl, rfl⟩

/-- The log-weight update of one inner AIS transition, expressed through
the pre-transition stored densities. -/
theorem ais_inner_log_w
    (Hlen : ∀ B s β, (op.step B s β alpha qf pf).1.length = B.length)
    (Hpres : ∀ B s β k, k < B.length →
      ((op.step B s β alpha qf pf).1.getD k defaultPoint).log_q =
        (B.getD k defaultPoint).log_q ∧
      ((op.step B s β alpha qf pf).1.getD k defaultPoint).log_p =
        (B.getD k defaultPoint).log_p)
    (B : List Point) (lw : List FVal) (s : PTree) (i : ℕ) (k : ℕ)
    (hk : k < B.length) (hkw : k < lw.length) :
    (ais_inner_transition B lw s betas i op qf pf alpha).1.2.getD k FVal.inv =
      FVal.add (lw.getD k FVal.inv)
        (FVal.sub
          (get_intermediate_log_prob ((B.getD k defaultPoint).log_q)
            ((B.getD k defaultPoint).log_p) (betas (i + 1)) alpha)
          (get_intermediate_log_prob ((B.getD k defaultPoint).log_q)
            ((B.getD k defaultPoint).log_p) (betas i) alpha)) := by
  have hpt := ais_inner_preserves_log_qp op betas alpha qf pf Hlen Hpres B lw s i k hk
  have hlen := ais_inner_length op betas alpha qf pf Hlen B lw s i
  have hk2 : k < (ais_inner_transition B lw s betas i op qf pf alpha).1.1.length := by
    rw [hlen.1]
    exact hk
  have hmain : (ais_inner_transition B lw s betas i op qf pf alpha).1.2.getD k FVal.inv
      = FVal.add (lw.getD k FVal.inv)
        (log_weight_contribution_point
          ((ais_inner_transition B lw s betas i op qf pf alpha).1.1.getD k defaultPoint)
          i betas alpha) := by
    conv_lhs => rw [ais_inner_transition]
    rw [getD_zipWith_of_lt _ lw _ k hkw (by
      have := hk2
      rw [ais_inner_transition] at this
      exact this) FVal.inv FVal.inv defaultPoint]
    rw [ais_inner_transition]
  rw [hmain, log_weight_contribution_point, hpt.1, hpt.2]

/-- Over any run of the annealing scan without resampling, if the
operator preserves the stored densities then the per-particle log-weight
accumulates the telescoped increment from `betas 0` up to the stage
reached. -/
theorem smc_scan_log_w_telescope (oracle : StepOracle)
    (Hlen : ∀ B s β, (op.step B s β alpha qf pf).1.length = B.length)
    (Hpres : ∀ B s β k, k < B.length →
      ((op.step B s β alpha qf pf).1.getD k defaultPoint).log_q =
        (B.getD k defaultPoint).log_q ∧
      ((op.step B s β alpha qf pf).1.getD k defaultPoint).log_p =
        (B.getD k defaultPoint).log_p) :
    ∀ (states : List PTree) (i : ℕ) (carry : List Point × List FVal) (k : ℕ),
      k < carry.1.length → k < carry.2.length →
      carry.2.getD k FVal.inv =
        FVal.sub
          (get_intermediate_log_prob ((carry.1.getD k defaultPoint).log_q)
            ((carry.1.getD k defaultPoint).log_p) (betas i) alpha)
          (get_intermediate_log_prob ((carry.1.getD k defaultPoint).log_q)
            ((carry.1.getD k defaultPoint).log_p) (betas 0) alpha) →
      (smc_scan op betas alpha false oracle qf pf carry states i).1.2.getD k FVal.inv =
        FVal.sub
          (get_intermediate_log_prob ((carry.1.getD k defaultPoint).log_q)
            ((carry.1.getD k defaultPoint).log_p) (betas (i + states.length)) alpha)
          (get_intermediate_log_prob ((carry.1.getD k defaultPoint).log_q)
            ((carry.1.getD k defaultPoint).log_p) (betas 0) alpha) := by
  intro states
  induction states with
  | nil =>
    intro i carry k hk hkw h3
    simpa using h3
  | cons s rest ih =>
    intro i carry k hk hkw h3
    rw [smc_scan]
    have hpt := ais_inner_preserves_log_qp op betas alpha qf pf Hlen Hpres carry.1
      carry.2 s i k hk
    have hlen := ais_inner_length op betas alpha qf pf Hlen carry.1 carry.2 s i
    have hk1 : k <
        (ais_inner_transition carry.1 carry.2 s betas i op qf pf alpha).1.1.length := by
      rw [hlen.1]
      exact hk
    have hk2 : k <
        (ais_inner_transition carry.1 carry.2 s betas i op qf pf alpha).1.2.length := by
      rw [hlen.2]
      omega
    have hlw : (ais_inner_transition carry.1 carry.2 s betas i op qf pf
        alpha).1.2.getD k FVal.inv =
        FVal.sub
          (get_intermediate_log_prob ((carry.1.getD k defaultPoint).log_q)
            ((carry.1.getD k defaultPoint).log_p) (betas (i + 1)) alpha)
          (get_intermediate_log_prob ((carry.1.getD k defaultPoint).log_q)
            ((carry.1.getD k defaultPoint).log_p) (betas 0) alpha) := by
      rw [ais_inner_log_w op betas alpha qf pf Hlen Hpres carry.1 carry.2 s i k hk hkw,
        h3, gilp_telescope]
    have := ih (i + 1)
      (ais_inner_transition carry.1 carry.2 s betas i op qf pf alpha).1 k hk1 hk2
      (by rw [hlw, hpt.1, hpt.2])
    rw [hpt.1, hpt.2] at this
    have harith : i + 1 + rest.length = i + (s :: rest).length := by
      simp only [List.length_cons]
      omega
    rw [harith] at this
    exact this

end Claim1Lemmas

/-- C1: in a run of `smc.step` with `use_resampling = false`, if every
transition-operator step leaves each particle's stored `log_q` and
`log_p` unchanged (and preserves the batch length, as a batched operator
does), then each particle's returned log-weight — the initial stage-0
increment plus the increments of all scan stages — equals
`get_intermediate_log_prob(log_q0, log_p0, 1, alpha) -
get_intermediate_log_prob(log_q0, log_p0, 0, alpha)`, where `log_q0` /
`log_p0` are the particle's stored values after the initial validity
repair; the hypothesis names the endpoint values `betas 0 = 0` and
`betas (n+1) = 1` of the built schedules, over which the per-stage
increments telescope. -/
theorem claim1_log_weights_telescope (op : TransitionOperator) (betas : ℕ → ℚ)
    (alpha : ℚ) (oracle : StepOracle) (grad_fn : List FVal → List FVal)
    (qf pf : List FVal → FVal) (x0 : List (List FVal)) (st : SMCState) (n : ℕ)
    (hbeta0 : betas 0 = 0) (hbeta1 : betas (n + 1) = 1)
    (hn : st.transition_operator_state.length = n)
    (Hlen : ∀ B s β, (op.step B s β alpha qf pf).1.length = B.length)
    (Hpres : ∀ B s β k, k < B.length →
      ((op.step B s β alpha qf pf).1.getD k defaultPoint).log_q =
        (B.getD k defaultPoint).log_q ∧
      ((op.step B s β alpha qf pf).1.getD k defaultPoint).log_p =
        (B.getD k defaultPoint).log_p)
    (point1 : List Point)
    (hpoint1 : point1 = replace_invalid_samples_with_valid_ones
      (x0.map (fun x => create_point x qf pf op.uses_grad grad_fn))
      oracle.choice_indices)
    (k : ℕ) (hk : k < point1.length) :
    (smc_step op betas alpha false oracle grad_fn qf pf x0 st).1.2.getD k FVal.inv =
      FVal.sub
        (get_intermediate_log_prob ((point1.getD k defaultPoint).log_q)
          ((point1.getD k defaultPoint).log_p) 1 alpha)
        (get_intermediate_log_prob ((point1.getD k defaultPoint).log_q)
          ((point1.getD k defaultPoint).log_p) 0 alpha) := by
  have hstep : (smc_step op betas alpha false oracle grad_fn qf pf x0 st).1.2 =
      (smc_scan op betas alpha false oracle qf pf
        (point1, point1.map (fun p => log_weight_contribution_point p 0 betas alpha))
        st.transition_operator_state 1).1.2 := by
    rw [smc_step, hpoint1]
  have hkw : k < (point1.map
      (fun p => log_weight_contribution_point p 0 betas alpha)).length := by
    rw [List.length_map]
    exact hk
  have h3 : (point1.map
      (fun p => log_weight_contribution_point p 0 betas alpha)).getD k FVal.inv =
      FVal.sub
        (get_intermediate_log_prob ((point1.getD k defaultPoint).log_q)
          ((point1.getD k defaultPoint).log_p) (betas 1) alpha)
        (get_intermediate_log_prob ((point1.getD k defaultPoint).log_q)
          ((point1.getD k defaultPoint).log_p) (betas 0) alpha) := by
    rw [getD_map_of_lt _ point1 k hk FVal.inv defaultPoint]
    rfl
  have hmain := smc_scan_log_w_telescope op betas alpha qf pf oracle Hlen Hpres
    st.transition_operator_state 1
    (point1, point1.map (fun p => log_weight_contribution_point p 0 betas alpha))
    k hk hkw h3
  rw [hstep, hmain, hn]
  rw [Nat.add_comm 1 n, hbeta1, hbeta0]

/-- Instantiation of C1: identity transitions over the schedule
`betas = [0, 1, 1]`; the single particle's final log-weight is the full
`beta = 0 → 1` difference of annealed log-densities. -/
theorem claim1_witness :
    (smc_step ⟨fun B s _ _ _ _ => (B, s), false⟩ (fun i => if i = 0 then (0 : ℚ) else 1) 2
        false ⟨[0], fun _ _ => false, fun _ => []⟩ (fun _ => []) (fun _ => .fin 0)
        (fun _ => .fin 0) [[FVal.fin 0]] ⟨[PTree.leaf 0], 0⟩).1.2.getD 0 FVal.inv =
      FVal.sub
        (get_intermediate_log_prob
          (((replace_invalid_samples_with_valid_ones
              ([[FVal.fin 0]].map (fun x => create_point x (fun _ => .fin 0)
                (fun _ => .fin 0) false (fun _ => []))) [0]).getD 0 defaultPoint).log_q)
          (((replace_invalid_samples_with_valid_ones
              ([[FVal.fin 0]].map (fun x => create_point x (fun _ => .fin 0)
                (fun _ => .fin 0) false (fun _ => []))) [0]).getD 0 defaultPoint).log_p)
          1 2)
        (get_intermediate_log_prob
          (((replace_invalid_samples_with_valid_ones
              ([[FVal.fin 0]].map (fun x => create_point x (fun _ => .fin 0)
                (fun _ => .fin 0) false (fun _ => []))) [0]).getD 0 defaultPoint).log_q)
          (((replace_invalid_samples_with_valid_ones
              ([[FVal.fin 0]].map (fun x => create_point x (fun _ => .fin 0)
                (fun _ => .fin 0) false (fun _ => []))) [0]).getD 0 defaultPoint).log_p)
          0 2) :=
  claim1_log_weights_telescope ⟨fun B s _ _ _ _ => (B, s), false⟩
    (fun i => if i = 0 then (0 : ℚ) else 1) 2 ⟨[0], fun _ _ => false, fun _ => []⟩
    (fun _ => []) (fun _ => .fin 0) (fun _ => .fin 0) [[FVal.fin 0]]
    ⟨[PTree.leaf 0], 0⟩ 1 rfl rfl rfl
    (fun _ _ _ => rfl) (fun _ _ _ _ _ => ⟨rfl, rfl⟩) _ rfl 0 (by decide)

/-- `jnp.linspace a b m`: `m` evenly spaced values from `a` to `b`
inclusive (for `m = 1` the single value `a`, as `jnp.linspace` returns
and as the `0 / 0 = 0` convention below reproduces). -/
noncomputable def linspace (a b : ℝ) (m : ℕ) : List ℝ :=
  (List.range m).map (fun i : ℕ => a + (b - a) * (i : ℝ) / ((m : ℝ) - 1))

/-- `jnp.geomspace a b m` for positive endpoints: `m` values spaced
geometrically from `a` to `b` inclusive. -/
noncomputable def geomspace (a b : ℝ) (m : ℕ) : List ℝ :=
  (List.range m).map (fun i : ℕ => a * (b / a) ^ ((i : ℝ) / ((m : ℝ) - 1)))

/-- `smc.py` lines 43-60: the sampler record returned by `build_smc`
(the `init` / `step` closures are developed separately above as
`smc_step_checked`; here the record keeps the data fields the claims
speak about). -/
structure SequentialMonteCarloSampler where
  transition_operator : TransitionOperator
  use_resampling : Bool
  betas : List ℝ
  alpha : ℝ

/-- `smc.py` lines 104-143 and 232-235: construct the sampler.  For
`geometric` spacing, roughly one quarter of the schedule is linearly
spaced between 0 and 0.01 with the final point dropped, and the rest is
geometrically spaced between 0.01 and 1 (the point counts follow the
source exactly, with the Python integer arithmetic carried out in `ℤ`);
for `linear` spacing the schedule is evenly spaced on `[0, 1]`; any
other `spacing_type` raises `NotImplementedError`, modelled as `none`. -/
noncomputable def build_smc (transition_operator : TransitionOperator)
    (n_intermediate_distributions : ℕ) (spacing_type : String) (alpha : ℝ)
    (use_resampling : Bool) (resampling_threshold : ℝ) :
    Option SequentialMonteCarloSampler :=
  if spacing_type = "geometric" then
    let n_intermediate_linspace_points : ℕ := n_intermediate_distributions / 4
    let n_intermediate_geomspace_points : ℤ :=
      (n_intermediate_distributions : ℤ) - n_intermediate_linspace_points - 1
    some { transition_operator := transition_operator,
           use_resampling := use_resampling,
           betas := (linspace 0 0.01 (n_intermediate_linspace_points + 2)).dropLast ++
             geomspace 0.01 1 (n_intermediate_geomspace_points + 2).toNat,
           alpha := alpha }
  else if spacing_type = "linear" then
    some { transition_operator := transition_operator,
           use_resampling := use_resampling,
           betas := linspace 0 1 (n_intermediate_distributions + 2),
           alpha := alpha }
  else none

/-- C8: `build_smc` with a `spacing_type` outside `{linear, geometric}`
fails at construction time (`raise NotImplementedError`, modelled as
`none`) instead of defaulting to some schedule, while both recognised
spacing types construct and return a sampler. -/
theorem claim8_build_smc_spacing_guard (top : TransitionOperator) (n : ℕ) (s : String)
    (alpha : ℝ) (u : Bool) (thr : ℝ) :
    (s ≠ "linear" ∧ s ≠ "geometric" →
      build_smc top n s alpha u thr = none) ∧
    (s = "linear" ∨ s = "geometric" →
      (build_smc top n s alpha u thr).isSome = true) := by
  constructor
  · intro h
    rw [build_smc, if_neg h.2, if_neg h.1]
  · intro h
    rcases h with rfl | rfl
    · rw [build_smc, if_neg (by decide), if_pos rfl]
      rfl
    · rw [build_smc, if_pos rfl]
      rfl

/-- Instantiation of C8: the unrecognised spacing type `cosine` is
refused while `linear` builds a sampler. -/
theorem claim8_witness :
    build_smc invalidatingOp 3 "cosine" 2 true 0.3 = none ∧
    (build_smc invalidatingOp 3 "linear" 2 true 0.3).isSome = true :=
  ⟨(claim8_build_smc_spacing_guard invalidatingOp 3 "cosine" 2 true 0.3).1
      ⟨by decide, by decide⟩,
    (claim8_build_smc_spacing_guard invalidatingOp 3 "linear" 2 true 0.3).2
      (Or.inl rfl)⟩

/-- Dropping the last linspace element leaves the first `m` of `m + 1`
evenly spaced points. -/
theorem linspace_dropLast (a b : ℝ) (m : ℕ) :
    (linspace a b (m + 1)).dropLast =
      (List.range m).map
        (fun i : ℕ => a + (b - a) * (i : ℝ) / (((m + 1 : ℕ) : ℝ) - 1)) := by
  rw [linspace, List.range_succ, List.map_append]
  simp

/-- Length of the linear schedule. -/
theorem linspace01_length (n : ℕ) : (linspace 0 1 (n + 2)).length = n + 2 := by
  simp [linspace]

/-- The linear schedule starts at 0. -/
theorem linspace01_head (n : ℕ) : (linspace 0 1 (n + 2)).head? = some 0 := by
  rw [linspace, List.range_succ_eq_map]
  simp

/-- The linear schedule ends at 1. -/
theorem linspace01_last (n : ℕ) : (linspace 0 1 (n + 2)).getLast? = some 1 := by
  rw [linspace, List.range_succ]
  rw [List.map_append]
  rw [List.getLast?_append_of_ne_nil _ (by simp)]
  simp only [List.map_cons, List.map_nil, List.getLast?_singleton]
  congr 1
  have h1 : ((n + 2 : ℕ) : ℝ) - 1 = (n : ℝ) + 1 := by push_cast; ring
  rw [h1]
  calc (0 : ℝ) + (1 - 0) * ((n + 1 : ℕ) : ℝ) / ((n : ℝ) + 1)
      = ((n : ℝ) + 1) / ((n : ℝ) + 1) := by push_cast; ring
    _ = 1 := div_self (by positivity)

/-- The linear schedule is non-decreasing. -/
theorem linspace01_pairwise (n : ℕ) : List.Pairwise (· ≤ ·) (linspace 0 1 (n + 2)) := by
  rw [← List.chain'_iff_pairwise, linspace, List.chain'_map]
  rw [show n + 2 = (n + 1).succ from rfl, List.chain'_range_succ]
  intro m hm
  have hpos : (0 : ℝ) < (((n + 1).succ : ℕ) : ℝ) - 1 := by push_cast; linarith
  gcongr <;> push_cast <;> linarith

/-- The linear schedule lies in `[0, 1]`. -/
theorem linspace01_mem (n : ℕ) : ∀ x ∈ linspace 0 1 (n + 2), 0 ≤ x ∧ x ≤ 1 := by
  intro x hx
  rw [linspace, List.mem_map] at hx
  rcases hx with ⟨i, hi, rfl⟩
  rw [List.mem_range] at hi
  have hpos : (0 : ℝ) < ((n + 2 : ℕ) : ℝ) - 1 := by push_cast; linarith
  have hile : (i : ℝ) ≤ ((n + 2 : ℕ) : ℝ) - 1 := by
    push_cast
    have h2 : (i : ℝ) ≤ (n : ℝ) + 1 := by exact_mod_cast Nat.lt_succ_iff.mp hi
    linarith
  constructor
  · positivity
  · calc 0 + (1 - 0) * (i : ℝ) / (((n + 2 : ℕ) : ℝ) - 1)
        = (i : ℝ) / (((n + 2 : ℕ) : ℝ) - 1) := by ring
      _ ≤ 1 := by rw [div_le_one hpos]; exact hile

/-- Length of the geometric schedule. -/
theorem geo_betas_length (k g : ℕ) :
    ((linspace 0 0.01 (k + 2)).dropLast ++ geomspace 0.01 1 (g + 2)).length =
      (k + 1) + (g + 2) := by
  simp [linspace, geomspace]

/-- The geometric schedule starts at 0 (head of the linear prefix). -/
theorem geo_betas_head (k g : ℕ) :
    ((linspace 0 0.01 (k + 2)).dropLast ++ geomspace 0.01 1 (g + 2)).head? =
      some 0 := by
  rw [linspace_dropLast, List.range_succ_eq_map]
  simp

/-- The geometric schedule ends at 1 (last of the geometric suffix). -/
theorem geo_betas_last (k g : ℕ) :
    ((linspace 0 0.01 (k + 2)).dropLast ++ geomspace 0.01 1 (g + 2)).getLast? =
      some 1 := by
  rw [List.getLast?_append_of_ne_nil _ (by simp [geomspace])]
  rw [geomspace, List.range_succ]
  rw [List.map_append]
  rw [List.getLast?_append_of_ne_nil _ (by simp)]
  simp only [List.map_cons, List.map_nil, List.getLast?_singleton]
  have h1 : ((g + 2 : ℕ) : ℝ) - 1 = (g : ℝ) + 1 := by push_cast; ring
  have h2 : ((g + 1 : ℕ) : ℝ) = (g : ℝ) + 1 := by push_cast; ring
  rw [h1, h2, div_self (by positivity), Real.rpow_one]
  norm_num

/-- The geometric schedule is non-decreasing: the linear prefix climbs to
just below 0.01, the geometric suffix starts at 0.01 and climbs to 1. -/
theorem geo_betas_pairwise (k g : ℕ) :
    List.Pairwise (· ≤ ·)
      ((linspace 0 0.01 (k + 2)).dropLast ++ geomspace 0.01 1 (g + 2)) := by
  rw [← List.chain'_iff_pairwise, List.chain'_append]
  refine ⟨?_, ?_, ?_⟩
  · rw [linspace_dropLast, List.chain'_map]
    rw [show k + 1 = k.succ from rfl, List.chain'_range_succ]
    intro m hm
    have hpos : (0 : ℝ) < ((k + 1 + 1 : ℕ) : ℝ) - 1 := by push_cast; linarith
    gcongr <;> push_cast <;> linarith
  · rw [geomspace, List.chain'_map]
    rw [show g + 2 = (g + 1).succ from rfl, List.chain'_range_succ]
    intro m hm
    have hb : (1 : ℝ) ≤ 1 / 0.01 := by norm_num
    have hpos : (0 : ℝ) < ((((g + 1).succ : ℕ)) : ℝ) - 1 := by push_cast; linarith
    have hexp : (m : ℝ) / (((((g + 1).succ : ℕ)) : ℝ) - 1) ≤
        ((m.succ : ℕ) : ℝ) / (((((g + 1).succ : ℕ)) : ℝ) - 1) := by
      gcongr
      push_cast
      linarith
    have hmono := Real.rpow_le_rpow_of_exponent_le hb hexp
    nlinarith [hmono]
  · intro x hx y hy
    rw [linspace_dropLast, List.range_succ, List.map_append,
      List.getLast?_append_of_ne_nil _ (by simp)] at hx
    simp only [List.map_cons, List.map_nil, List.getLast?_singleton,
      Option.mem_def, Option.some_inj] at hx
    rw [geomspace, List.range_succ_eq_map] at hy
    simp only [List.map_cons, List.head?_cons, Option.mem_def, Option.some_inj] at hy
    subst hx
    subst hy
    have hpos : (0 : ℝ) < ((k + 2 : ℕ) : ℝ) - 1 := by push_cast; linarith
    have hkle : (k : ℝ) ≤ ((k + 2 : ℕ) : ℝ) - 1 := by push_cast; linarith
    have hlin : (0 : ℝ) + (0.01 - 0) * (k : ℝ) / (((k + 2 : ℕ) : ℝ) - 1) ≤ 0.01 := by
      calc (0 : ℝ) + (0.01 - 0) * (k : ℝ) / (((k + 2 : ℕ) : ℝ) - 1)
          = 0.01 * ((k : ℝ) / (((k + 2 : ℕ) : ℝ) - 1)) := by ring
        _ ≤ 0.01 * 1 := by
            gcongr
            rw [div_le_one hpos]
            exact hkle
        _ = 0.01 := by norm_num
    have hgeo : (0.01 : ℝ) ≤
        0.01 * (1 / 0.01) ^ (((0 : ℕ) : ℝ) / (((g + 2 : ℕ) : ℝ) - 1)) := by
      rw [show (((0 : ℕ) : ℝ) / (((g + 2 : ℕ) : ℝ) - 1)) = 0 by simp]
      rw [Real.rpow_zero]
      norm_num
    linarith

/-- The geometric schedule lies in `[0, 1]`. -/
theorem geo_betas_mem (k g : ℕ) :
    ∀ x ∈ (linspace 0 0.01 (k + 2)).dropLast ++ geomspace 0.01 1 (g + 2),
      0 ≤ x ∧ x ≤ 1 := by
  intro x hx
  rw [List.mem_append] at hx
  rcases hx with hx | hx
  · rw [linspace_dropLast, List.mem_map] at hx
    rcases hx with ⟨i, hi, rfl⟩
    rw [List.mem_range] at hi
    have hpos : (0 : ℝ) < ((k + 1 + 1 : ℕ) : ℝ) - 1 := by push_cast; linarith
    have hile : (i : ℝ) ≤ ((k + 1 + 1 : ℕ) : ℝ) - 1 := by
      push_cast
      have h2 : (i : ℝ) ≤ (k : ℝ) := by exact_mod_cast Nat.lt_succ_iff.mp hi
      linarith
    constructor
    · positivity
    · calc (0 : ℝ) + (0.01 - 0) * (i : ℝ) / (((k + 1 + 1 : ℕ) : ℝ) - 1)
          = 0.01 * ((i : ℝ) / (((k + 1 + 1 : ℕ) : ℝ) - 1)) := by ring
        _ ≤ 0.01 * 1 := by
            gcongr
            rw [div_le_one hpos]
            exact hile
        _ ≤ 1 := by norm_num
  · rw [geomspace, List.mem_map] at hx
    rcases hx with ⟨i, hi, rfl⟩
    rw [List.mem_range] at hi
    have hb : (1 : ℝ) ≤ 1 / 0.01 := by norm_num
    have hpos : (0 : ℝ) < ((g + 2 : ℕ) : ℝ) - 1 := by push_cast; linarith
    have ht1 : (i : ℝ) / (((g + 2 : ℕ) : ℝ) - 1) ≤ 1 := by
      rw [div_le_one hpos]
      push_cast
      have h2 : (i : ℝ) ≤ (g : ℝ) + 1 := by exact_mod_cast Nat.lt_succ_iff.mp hi
      linarith
    have hup := Real.rpow_le_rpow_of_exponent_le hb ht1
    rw [Real.rpow_one] at hup
    have hlow : (0 : ℝ) ≤ (1 / 0.01 : ℝ) ^ ((i : ℝ) / (((g + 2 : ℕ) : ℝ) - 1)) :=
      Real.rpow_nonneg (by norm_num) _
    constructor
    · positivity
    · nlinarith

/-- C2: for every `n_intermediate_distributions ≥ 1` and both recognised
spacing types, the schedule built by `build_smc` has length `n + 2`,
starts at 0, ends at 1, is monotonically non-decreasing, and lies
entirely within `[0, 1]`. -/
theorem claim2_betas_schedule_valid (top : TransitionOperator) (n : ℕ) (s : String)
    (alpha : ℝ) (u : Bool) (thr : ℝ) (hn : 1 ≤ n)
    (hs : s = "linear" ∨ s = "geometric") :
    ∃ smc, build_smc top n s alpha u thr = some smc ∧
      smc.betas.length = n + 2 ∧
      smc.betas.head? = some 0 ∧
      smc.betas.getLast? = some 1 ∧
      List.Pairwise (· ≤ ·) smc.betas ∧
      ∀ x ∈ smc.betas, 0 ≤ x ∧ x ≤ 1 := by
  rcases hs with rfl | rfl
  · exact ⟨⟨top, u, linspace 0 1 (n + 2), alpha⟩,
      by rw [build_smc, if_neg (by decide), if_pos rfl],
      linspace01_length n, linspace01_head n, linspace01_last n,
      linspace01_pairwise n, linspace01_mem n⟩
  · have hklt : n / 4 < n := Nat.div_lt_self (by omega) (by omega)
    have htn : ((n : ℤ) - (n / 4 : ℕ) - 1 + 2).toNat = (n - n / 4 - 1) + 2 := by omega
    refine ⟨⟨top, u,
        (linspace 0 0.01 (n / 4 + 2)).dropLast ++
          geomspace 0.01 1 ((n - n / 4 - 1) + 2),
        alpha⟩,
      ?_, ?_, geo_betas_head (n / 4) (n - n / 4 - 1),
      geo_betas_last (n / 4) (n - n / 4 - 1),
      geo_betas_pairwise (n / 4) (n - n / 4 - 1),
      geo_betas_mem (n / 4) (n - n / 4 - 1)⟩
    · rw [build_smc, if_pos rfl]
      simp only [htn]
    · rw [geo_betas_length]
      omega

/-- Instantiation of C2 at `n = 1` with linear spacing. -/
theorem claim2_witness :
    ∃ smc, build_smc invalidatingOp 1 "linear" 2 false 0.3 = some smc ∧
      smc.betas.length = 1 + 2 ∧
      smc.betas.head? = some 0 ∧
      smc.betas.getLast? = some 1 ∧
      List.Pairwise (· ≤ ·) smc.betas ∧
      ∀ x ∈ smc.betas, 0 ≤ x ∧ x ≤ 1 :=
  claim2_betas_schedule_valid invalidatingOp 1 "linear" 2 false 0.3 (by decide)
    (Or.inl rfl)

/-- Modelled from the spec: `logsumexp` of a log-weight vector. -/
noncomputable def logsumexp (xs : List ℝ) : ℝ := Real.log ((xs.map Real.exp).sum)

/-- Modelled from the spec: `log_effective_sample_size(log_weights)`
returns `2*logsumexp(log_weights) - logsumexp(2*log_weights)` — design
section 4.4 (`fabjax.sampling.resampling` is not among the available
sources). -/
noncomputable def log_effective_sample_size (log_weights : List ℝ) : ℝ :=
  2 * logsumexp log_weights - logsumexp (log_weights.map (fun w => 2 * w))

/-- Modelled from the spec: `simple_resampling` draws `N` indices with
replacement from the categorical distribution proportional to the
weights (the draw enters as the oracle `indices` argument, with jax's
clamping gather) and returns the indices with the gathered particles. -/
def simple_resampling {α : Type} (indices : List ℕ) (samples : List α) (d : α) :
    List ℕ × List α :=
  (indices, indices.map (fun i => samples.getD (min i (samples.length - 1)) d))

/-- Modelled from the spec: `optionally_resample` computes the log-ESS;
when the normalised effective sample size `exp(log_ess) / N` falls below
`resample_threshold` it performs `simple_resampling` and resets the
log-weights to the uniform batch (every particle representing `1/N` of
the total mass); otherwise samples and weights pass through unchanged.
The decision is this one batch-level scalar comparison — no per-particle
branching exists. -/
noncomputable def optionally_resample {α : Type} (indices : List ℕ)
    (log_weights : List ℝ) (samples : List α) (d : α) (resample_threshold : ℝ) :
    List α × List ℝ × ℝ :=
  let log_ess := log_effective_sample_size log_weights
  let n := log_weights.length
  if Real.exp log_ess / n < resample_threshold then
    ((simple_resampling indices samples d).2,
      List.replicate n (-Real.log n), log_ess)
  else (samples, log_weights, log_ess)

/-- C7: when the normalised ESS is at or above the threshold,
`optionally_resample` returns the samples and the log-weights completely
unchanged; when it is below, it returns the resampled (gathered)
particles and resets every log-weight to the one uniform value — the
branch being chosen by the single per-batch scalar comparison. -/
theorem claim7_optionally_resample_frame {α : Type} (indices : List ℕ)
    (log_weights : List ℝ) (samples : List α) (d : α) (thr : ℝ) :
    (thr ≤ Real.exp (log_effective_sample_size log_weights) / log_weights.length →
      optionally_resample indices log_weights samples d thr =
        (samples, log_weights, log_effective_sample_size log_weights)) ∧
    (Real.exp (log_effective_sample_size log_weights) / log_weights.length < thr →
      optionally_resample indices log_weights samples d thr =
        ((simple_resampling indices samples d).2,
          List.replicate log_weights.length (-Real.log log_weights.length),
          log_effective_sample_size log_weights) ∧
      ∀ w ∈ (optionally_resample indices log_weights samples d thr).2.1,
        w = -Real.log log_weights.length) := by
  constructor
  · intro h
    rw [optionally_resample, if_neg (not_lt.mpr h)]
  · intro h
    have heq : optionally_resample indices log_weights samples d thr =
        ((simple_resampling indices samples d).2,
          List.replicate log_weights.length (-Real.log log_weights.length),
          log_effective_sample_size log_weights) := by
      rw [optionally_resample, if_pos h]
    refine ⟨heq, ?_⟩
    intro w hw
    rw [heq] at hw
    exact List.eq_of_mem_replicate hw

/-- Instantiation of C7 on the single-particle batch `log_weights = [0]`
(normalised ESS is 1): a threshold of `1/2` leaves everything unchanged,
a threshold of `2` forces the resample-and-reset branch. -/
theorem claim7_witness :
    optionally_resample [0] [(0 : ℝ)] [(5 : ℕ)] 0 (1 / 2) =
      ([(5 : ℕ)], [(0 : ℝ)], log_effective_sample_size [(0 : ℝ)]) ∧
    optionally_resample [0] [(0 : ℝ)] [(5 : ℕ)] 0 2 =
      ((simple_resampling [0] [(5 : ℕ)] 0).2,
        List.replicate ([(0 : ℝ)]).length (-Real.log ([(0 : ℝ)]).length),
        log_effective_sample_size [(0 : ℝ)]) := by
  have hess : log_effective_sample_size [(0 : ℝ)] = 0 := by
    simp [log_effective_sample_size, logsumexp]
  constructor
  · exact (claim7_optionally_resample_frame [0] [(0 : ℝ)] [(5 : ℕ)] 0 (1 / 2)).1
      (by rw [hess]; norm_num)
  · exact ((claim7_optionally_resample_frame [0] [(0 : ℝ)] [(5 : ℕ)] 0 2).2
      (by rw [hess]; norm_num)).1

end Fab
